import Mathlib

/-!
Verification of `write_to_global_var.c`.

A shallow embedding of `example-programs/write_to_global_var/write_to_global_var.c`:
one global `int a = 5`, two helpers that print it with `printf`, and a `main`
that calls the first helper, stores 15 into `a`, and calls the second helper.

Modelling conventions.

* `int` is a 32-bit two's complement integer, represented by an `Int` inside
  `[INT_MIN, INT_MAX]`.
* The process state is the global `a` together with the text written so far to
  the standard output and to the standard error stream. Both streams are
  unbounded append-only buffers, so a write cannot fail; buffering and the
  flush at exit are not modelled.
* `printf` is the C library function; only the directives `%d` and `%%` are
  modelled. It returns the number of characters written.
* `before_write` and `after_write` are declared `int` but reach their closing
  brace without a `return`. Their result is whatever the caller would find,
  which the embedding takes as an extra argument of the helper.
* `main` reaches its closing brace without a `return`, which for `main` is a
  `return 0` (C99 and later).
-/

namespace WriteToGlobalVar

/-! ## The type `int` -/

/-- Smallest value of a 32-bit `int`. -/
def INT_MIN : Int := -2147483648

/-- Largest value of a 32-bit `int`. -/
def INT_MAX : Int := 2147483647

/-- Membership in the value range of `int`. -/
def isInt (v : Int) : Prop := INT_MIN ≤ v ∧ v ≤ INT_MAX

instance (v : Int) : Decidable (isInt v) := by
  unfold isInt
  exact inferInstance

/-! ## Process state -/

/-- Process state: the global `a`, and what has been written to each stream. -/
structure Proc where
  /-- Value of the global variable `a`. -/
  a : Int
  /-- Text written so far to the standard output. -/
  stdout : String
  /-- Text written so far to the standard error stream. -/
  stderr : String
deriving DecidableEq, Repr

/-- State at process start: `int a = 5;` and nothing written yet. -/
def init : Proc := { a := 5, stdout := "", stderr := "" }

/-! ## `printf` -/

/-- Character of a decimal digit, `'0' + d`. -/
def digitChar (d : Nat) : Char := Char.ofNat (48 + d)

/-- Digit generation loop of the unsigned conversion: the least significant
digit of `n` is pushed in front of `acc` and the loop goes on with `n / 10`
until the quotient is zero. The first argument bounds the number of rounds. -/
def utoa_loop : Nat → Nat → List Char → List Char
  | 0, _, acc => acc
  | fuel + 1, n, acc =>
    if n / 10 = 0 then digitChar (n % 10) :: acc
    else utoa_loop fuel (n / 10) (digitChar (n % 10) :: acc)

/-- Decimal digits of an unsigned magnitude. -/
def utoa (n : Nat) : List Char := utoa_loop (n + 1) n []

/-- Conversion `%d`: a minus sign for a negative argument, then the digits of
the magnitude. -/
def fmt_d (v : Int) : List Char :=
  if v < 0 then '-' :: utoa v.natAbs else utoa v.natAbs

/-- Expansion of a format string against its `int` arguments. The directives
`%d` and `%%` are expanded, ordinary characters are copied, and any other use
of `%` (a directive outside the model, or `%d` without an argument left) has no
expansion. -/
def format : List Char → List Int → Option (List Char)
  | [], _ => some []
  | '%' :: 'd' :: rest, v :: args => (format rest args).map (fun t => fmt_d v ++ t)
  | '%' :: '%' :: rest, args => (format rest args).map (fun t => '%' :: t)
  | '%' :: _, _ => none
  | c :: rest, args => (format rest args).map (fun t => c :: t)

/-- Library call `printf(fmt, args...)`: appends the expanded text to the standard
output and returns the number of characters written; when the format has no
expansion nothing is written and the result is negative. -/
def printf (fmt : String) (args : List Int) (s : Proc) : Int × Proc :=
  match format fmt.toList args with
  | some text => ((text.length : Int), { s with stdout := s.stdout ++ String.mk text })
  | none => (-1, s)

/-! ## The program -/

/-- Helper `int before_write()`: `printf("before write: %d\n", a);` and no
`return`. The argument `ret` is the unspecified result. -/
def before_write (ret : Int) (s : Proc) : Int × Proc :=
  let r := printf "before write: %d\n" [s.a] s
  (ret, r.2)

/-- Helper `int after_write()`: `printf("after write: %d\n", a);` and no
`return`. The argument `ret` is the unspecified result. -/
def after_write (ret : Int) (s : Proc) : Int × Proc :=
  let r := printf "after write: %d\n" [s.a] s
  (ret, r.2)

/-- Entry point `int main()`: `before_write(); a = 15; after_write();` and the
implicit `return 0`. `r1` and `r2` are the unspecified results of the helpers. -/
def main (r1 r2 : Int) (s : Proc) : Int × Proc :=
  let s1 := (before_write r1 s).2
  let s2 := { s1 with a := 15 }
  let s3 := (after_write r2 s2).2
  (0, s3)

/-! ## Execution of `main` statement by statement -/

/-- Program points of `main`. -/
inductive Pc where
  /-- Start of `main`, in front of `before_write();`. -/
  | call_before
  /-- In front of `a = 15;`. -/
  | assign
  /-- In front of `after_write();`. -/
  | call_after
  /-- At the closing brace of `main`. -/
  | main_end
  /-- The process has terminated. -/
  | exited
deriving DecidableEq, Repr

/-- A configuration: program point, process state, and the exit status once
the process has terminated. -/
structure Config where
  /-- Current program point. -/
  pc : Pc
  /-- Current process state. -/
  proc : Proc
  /-- Exit status, present once `main` has returned. -/
  status : Option Int
deriving DecidableEq, Repr

/-- Configuration in which `main` is entered with process state `s`. -/
def enter (s : Proc) : Config := { pc := Pc.call_before, proc := s, status := none }

/-- Configuration at process start. -/
def start : Config := enter init

/-- One statement of `main`; a terminated process stays as it is. -/
def step (r1 r2 : Int) (c : Config) : Config :=
  match c.pc with
  | Pc.call_before => { c with pc := Pc.assign, proc := (before_write r1 c.proc).2 }
  | Pc.assign => { c with pc := Pc.call_after, proc := { c.proc with a := 15 } }
  | Pc.call_after => { c with pc := Pc.main_end, proc := (after_write r2 c.proc).2 }
  | Pc.main_end => { c with pc := Pc.exited, status := some 0 }
  | Pc.exited => c

/-- Configuration after `n` steps. -/
def run (r1 r2 : Int) : Nat → Config → Config
  | 0, c => c
  | n + 1, c => run r1 r2 n (step r1 r2 c)

/-! ## Decimal numerals, as a specification -/

/-- Value of a digit character. -/
def digitVal (c : Char) : Nat := c.toNat - 48

/-- Number denoted by a string of digits, most significant digit first. -/
def decValue (ds : List Char) : Nat := ds.foldl (fun acc c => 10 * acc + digitVal c) 0

/-- The string `ds` is the base-10 numeral of `n` without padding: it is not
empty, consists of digits only, has no leading zero unless it is the single
digit `0`, and denotes `n`. -/
def UnsignedDecimal (ds : List Char) (n : Nat) : Prop :=
  ds ≠ [] ∧ (∀ c ∈ ds, c.isDigit = true) ∧ (ds.head? = some '0' → ds.length = 1) ∧
    decValue ds = n

instance (ds : List Char) (n : Nat) : Decidable (UnsignedDecimal ds n) := by
  unfold UnsignedDecimal
  exact inferInstance

/-- The string `cs` is the signed base-10 numeral of `v` without padding: the
numeral of the magnitude, preceded by `-` exactly when `v` is negative. -/
def SignedDecimal (cs : List Char) (v : Int) : Prop :=
  (v < 0 ∧ cs.head? = some '-' ∧ UnsignedDecimal cs.tail v.natAbs) ∨
    (0 ≤ v ∧ UnsignedDecimal cs v.natAbs)

instance (cs : List Char) (v : Int) : Decidable (SignedDecimal cs v) := by
  unfold SignedDecimal
  exact inferInstance

/-! ## The digit loop -/

theorem digitChar_facts : ∀ d < 10,
    (digitChar d).isDigit = true ∧ digitVal (digitChar d) = d ∧
      (digitChar d = '0' ↔ d = 0) ∧ digitChar d ≠ '\n' ∧ digitChar d ≠ '-' := by
  decide

/-- The accumulator of the loop is only ever extended at the front. -/
theorem utoa_loop_acc (fuel : Nat) : ∀ (n : Nat) (acc : List Char),
    utoa_loop fuel n acc = utoa_loop fuel n [] ++ acc := by
  induction fuel with
  | zero => intro n acc; simp [utoa_loop]
  | succ k ih =>
    intro n acc
    simp only [utoa_loop]
    by_cases h : n / 10 = 0
    · simp [h]
    · simp only [h, if_false]
      rw [ih (n / 10) (digitChar (n % 10) :: acc), ih (n / 10) [digitChar (n % 10)]]
      simp

/-- Any bound on the number of rounds above `n` gives the same digits. -/
theorem utoa_loop_fuel (fuel : Nat) : ∀ (n fuel2 : Nat) (acc : List Char),
    n < fuel → n < fuel2 → utoa_loop fuel n acc = utoa_loop fuel2 n acc := by
  induction fuel with
  | zero => intro n fuel2 acc h; omega
  | succ k ih =>
    intro n fuel2 acc h1 h2
    cases fuel2 with
    | zero => omega
    | succ m =>
      simp only [utoa_loop]
      by_cases h : n / 10 = 0
      · simp [h]
      · simp only [h, if_false]
        apply ih <;> omega

/-- The loop, read as a recursion on the magnitude. -/
theorem utoa_eq (n : Nat) :
    utoa n = if n < 10 then [digitChar n] else utoa (n / 10) ++ [digitChar (n % 10)] := by
  have hstep : utoa n = if n / 10 = 0 then [digitChar (n % 10)]
      else utoa_loop n (n / 10) [digitChar (n % 10)] := rfl
  rw [hstep]
  by_cases h : n < 10
  · have h0 : n / 10 = 0 := by omega
    have h1 : n % 10 = n := by omega
    simp [h, h0, h1]
  · have h0 : ¬ n / 10 = 0 := by omega
    simp only [h, h0, if_false]
    unfold utoa
    rw [utoa_loop_acc n (n / 10) [digitChar (n % 10)]]
    rw [utoa_loop_fuel n (n / 10) (n / 10 + 1) [] (by omega) (by omega)]

theorem decValue_snoc (ds : List Char) (c : Char) :
    decValue (ds ++ [c]) = 10 * decValue ds + digitVal c := by
  simp [decValue, List.foldl_append]

theorem utoa_ne_nil (n : Nat) : utoa n ≠ [] := by
  rw [utoa_eq]
  split <;> simp

theorem utoa_isDigit (n : Nat) : ∀ c ∈ utoa n, c.isDigit = true := by
  induction n using Nat.strong_induction_on with
  | _ n ih =>
    rw [utoa_eq]
    split
    · intro c hc
      simp only [List.mem_singleton] at hc
      subst hc
      exact (digitChar_facts n (by omega)).1
    · intro c hc
      simp only [List.mem_append, List.mem_singleton] at hc
      rcases hc with hc | hc
      · exact ih (n / 10) (by omega) c hc
      · subst hc
        exact (digitChar_facts (n % 10) (by omega)).1

theorem utoa_value (n : Nat) : decValue (utoa n) = n := by
  induction n using Nat.strong_induction_on with
  | _ n ih =>
    rw [utoa_eq]
    split
    · have := (digitChar_facts n (by omega)).2.1
      simp [decValue, this]
    · rw [decValue_snoc, ih (n / 10) (by omega), (digitChar_facts (n % 10) (by omega)).2.1]
      omega

/-- A leading zero occurs only in the numeral of zero. -/
theorem utoa_head (n : Nat) : (utoa n).head? = some '0' → n = 0 := by
  induction n using Nat.strong_induction_on with
  | _ n ih =>
    rw [utoa_eq]
    split
    · intro h
      simp only [List.head?_cons, Option.some.injEq] at h
      exact ((digitChar_facts n (by omega)).2.2.1).1 h
    · intro h
      rw [List.head?_append_of_ne_nil _ (utoa_ne_nil _)] at h
      have := ih (n / 10) (by omega) h
      omega

theorem utoa_zero : utoa 0 = ['0'] := by decide

theorem utoa_unsignedDecimal (n : Nat) : UnsignedDecimal (utoa n) n := by
  refine ⟨utoa_ne_nil n, utoa_isDigit n, ?_, utoa_value n⟩
  intro h
  rw [utoa_head n h, utoa_zero]
  rfl

/-! ## The numeral of a number is unique -/

theorem digit_char_eq (c : Char) (h : c.isDigit = true) :
    digitVal c < 10 ∧ digitChar (digitVal c) = c := by
  have h2 : 48 ≤ c.toNat ∧ c.toNat ≤ 57 := by
    simp only [Char.isDigit, Bool.and_eq_true, decide_eq_true_eq, UInt32.le_def] at h
    exact h
  refine ⟨by unfold digitVal; omega, ?_⟩
  unfold digitChar digitVal
  rw [show 48 + (c.toNat - 48) = c.toNat by omega]
  exact Char.ofNat_toNat c

theorem unsignedDecimal_unique (ds : List Char) :
    ∀ n, UnsignedDecimal ds n → ds = utoa n := by
  induction ds using List.reverseRecOn with
  | nil => intro n h; exact absurd rfl h.1
  | append_singleton front c ih =>
    intro n ⟨_, hdig, hhead, hval⟩
    have hc := digit_char_eq c (hdig c (by simp))
    rw [decValue_snoc] at hval
    by_cases hf : front = []
    · subst hf
      have hn : n = digitVal c := by simp [decValue] at hval; omega
      rw [utoa_eq, if_pos (by omega), hn, hc.2]
      rfl
    · have hfront : UnsignedDecimal front (decValue front) := by
        refine ⟨hf, fun x hx => hdig x (by simp [hx]), ?_, rfl⟩
        intro h0
        rw [List.head?_append_of_ne_nil _ hf] at hhead
        have hlen := hhead h0
        cases front with
        | nil => exact absurd rfl hf
        | cons x xs => simp at hlen
      have hfe := ih _ hfront
      have hpos : decValue front ≠ 0 := by
        intro hz
        rw [hz, utoa_zero] at hfe
        rw [hfe] at hhead
        have := hhead rfl
        simp at this
      rw [utoa_eq, if_neg (by omega)]
      have h1 : n / 10 = decValue front := by omega
      have h2 : n % 10 = digitVal c := by omega
      rw [h1, h2, hc.2, ← hfe]

theorem fmt_d_signedDecimal (v : Int) : SignedDecimal (fmt_d v) v := by
  unfold SignedDecimal fmt_d
  by_cases h : v < 0
  · left
    simp only [h, if_true]
    exact ⟨trivial, rfl, utoa_unsignedDecimal _⟩
  · right
    simp only [h, if_false]
    exact ⟨by omega, utoa_unsignedDecimal _⟩

theorem signedDecimal_unique (cs : List Char) (v : Int) (h : SignedDecimal cs v) :
    cs = fmt_d v := by
  unfold fmt_d
  rcases h with ⟨hneg, hhead, hu⟩ | ⟨hpos, hu⟩
  · rw [if_pos hneg, ← unsignedDecimal_unique _ _ hu]
    cases cs with
    | nil => simp at hhead
    | cons x xs =>
      simp only [List.head?_cons, Option.some.injEq] at hhead
      rw [hhead]
      rfl
  · rw [if_neg (by omega)]
    exact unsignedDecimal_unique _ _ hu

/-- The text of a `%d` conversion holds no newline. -/
theorem fmt_d_no_newline (v : Int) : '\n' ∉ fmt_d v := by
  have hu : ∀ n, '\n' ∉ utoa n := fun n hmem => by
    have := utoa_isDigit n _ hmem
    revert this
    decide
  unfold fmt_d
  split
  · intro hmem
    rcases List.mem_cons.1 hmem with h | h
    · revert h; decide
    · exact hu _ h
  · exact hu _

/-- A magnitude below `10 ^ (k + 1)` has at most `k + 1` digits. -/
theorem utoa_length (k : Nat) : ∀ n, n < 10 ^ (k + 1) → (utoa n).length ≤ k + 1 := by
  induction k with
  | zero =>
    intro n h
    rw [utoa_eq, if_pos (by omega)]
    simp
  | succ j ih =>
    intro n h
    rw [utoa_eq]
    split
    · simp
    · have hq : n / 10 < 10 ^ (j + 1) := by
        rw [pow_succ] at h
        omega
      have := ih (n / 10) hq
      simp only [List.length_append, List.length_singleton]
      omega

/-- The text of `%d` for an `int` has at most eleven characters. -/
theorem fmt_d_length (v : Int) (hv : isInt v) : (fmt_d v).length ≤ 11 := by
  have hn : v.natAbs < 10 ^ (9 + 1) := by
    unfold isInt INT_MIN INT_MAX at hv
    norm_num
    omega
  have := utoa_length 9 v.natAbs hn
  unfold fmt_d
  split
  · simp only [List.length_cons]; omega
  · omega

/-! ## The helpers and the steps of `main` -/

theorem format_before (v : Int) :
    format "before write: %d\n".toList [v] =
      some ("before write: ".toList ++ fmt_d v ++ ['\n']) :=
  rfl

theorem format_after (v : Int) :
    format "after write: %d\n".toList [v] =
      some ("after write: ".toList ++ fmt_d v ++ ['\n']) :=
  rfl

theorem before_write_proc (ret : Int) (s : Proc) :
    (before_write ret s).2 =
      { s with stdout := s.stdout ++ "before write: " ++ String.mk (fmt_d s.a) ++ "\n" } := by
  unfold before_write printf
  simp only [format_before]
  congr 1
  apply String.ext
  simp [String.data_append]

theorem after_write_proc (ret : Int) (s : Proc) :
    (after_write ret s).2 =
      { s with stdout := s.stdout ++ "after write: " ++ String.mk (fmt_d s.a) ++ "\n" } := by
  unfold after_write printf
  simp only [format_after]
  congr 1
  apply String.ext
  simp [String.data_append]

theorem run_add (r1 r2 : Int) (m : Nat) : ∀ (n : Nat) (c : Config),
    run r1 r2 (m + n) c = run r1 r2 n (run r1 r2 m c) := by
  induction m with
  | zero => intro n c; simp [run]
  | succ k ih =>
    intro n c
    rw [show k + 1 + n = (k + n) + 1 by omega]
    simp only [run]
    exact ih n (step r1 r2 c)

theorem run_exited (r1 r2 : Int) (n : Nat) : ∀ c : Config, c.pc = Pc.exited →
    run r1 r2 n c = c := by
  induction n with
  | zero => intro c _; rfl
  | succ k ih =>
    intro c h
    have hs : step r1 r2 c = c := by simp [step, h]
    simp only [run]
    rw [hs]
    exact ih c h

/-- Four steps carry out the whole of `main`. -/
theorem run_four (r1 r2 : Int) (s : Proc) :
    run r1 r2 4 (enter s) =
      { pc := Pc.exited, proc := (main r1 r2 s).2, status := some (main r1 r2 s).1 } :=
  rfl

theorem run_ge_four (r1 r2 : Int) (s : Proc) (k : Nat) :
    run r1 r2 (4 + k) (enter s) = run r1 r2 4 (enter s) := by
  rw [run_add]
  exact run_exited r1 r2 k _ rfl

theorem run_min (r1 r2 : Int) (s : Proc) (n : Nat) :
    run r1 r2 n (enter s) = run r1 r2 (min n 4) (enter s) := by
  by_cases h : n ≤ 4
  · rw [Nat.min_eq_left h]
  · rw [Nat.min_eq_right (by omega)]
    obtain ⟨k, rfl⟩ : ∃ k, n = 4 + k := ⟨n - 4, by omega⟩
    exact run_ge_four r1 r2 s k

/-- A run from the entry of `main` has made at most three steps, or it is the
run of four steps. -/
theorem run_cases (r1 r2 : Int) (s : Proc) (n : Nat) :
    n = 0 ∨ n = 1 ∨ n = 2 ∨ n = 3 ∨
      (4 ≤ n ∧ run r1 r2 n (enter s) = run r1 r2 4 (enter s)) := by
  by_cases h : 4 ≤ n
  · right; right; right; right
    refine ⟨h, ?_⟩
    rw [run_min, Nat.min_eq_right h]
  · omega
theorem step_ret_irrelevant (r1 r2 q1 q2 : Int) (c : Config) :
    step r1 r2 c = step q1 q2 c := by
  unfold step
  cases c.pc <;> rfl

theorem run_ret_irrelevant (r1 r2 q1 q2 : Int) (n : Nat) : ∀ c : Config,
    run r1 r2 n c = run q1 q2 n c := by
  induction n with
  | zero => intro c; rfl
  | succ k ih =>
    intro c
    simp only [run]
    rw [step_ret_irrelevant r1 r2 q1 q2 c]
    exact ih _

theorem main_ret_irrelevant (r1 r2 q1 q2 : Int) (s : Proc) :
    main r1 r2 s = main q1 q2 s := rfl

/-! ## Properties of the program -/

/-- C1: run from the initial state (`a = 5`, nothing written), `main` leaves
exactly the text `before write: 5\nafter write: 15\n` on the standard output,
whatever the helpers return. The text grows in program order: nothing at the
start, the first line after `before_write`, still only the first line after the
assignment, and both lines from the return of `after_write` on. -/
theorem main_stdout (r1 r2 : Int) :
    (main r1 r2 init).2.stdout = "before write: 5\nafter write: 15\n" ∧
    List.map (fun n => (run r1 r2 n start).proc.stdout) [0, 1, 2, 3, 4] =
      ["", "before write: 5\n", "before write: 5\n",
        "before write: 5\nafter write: 15\n", "before write: 5\nafter write: 15\n"] ∧
    ∀ k, (run r1 r2 (4 + k) start).proc.stdout = "before write: 5\nafter write: 15\n" := by
  refine ⟨?_, ?_, ?_⟩
  · rw [main_ret_irrelevant r1 r2 0 0]
    decide
  · simp only [List.map, run_ret_irrelevant r1 r2 0 0]
    decide
  · intro k
    unfold start
    rw [run_ge_four, run_ret_irrelevant r1 r2 0 0]
    decide

/-- C2: the global `a` is 5 in the initial state, and it is 5 in every
configuration of the run of `main` whose program point lies in front of the
assignment `a = 15`: at the call of `before_write`, which therefore prints 5,
and after `before_write` has returned. -/
theorem a_is_5_before_assignment (r1 r2 : Int) (n : Nat)
    (h : (run r1 r2 n start).pc = Pc.call_before ∨ (run r1 r2 n start).pc = Pc.assign) :
    init.a = 5 ∧ (run r1 r2 n start).proc.a = 5 ∧
      (before_write r1 (run r1 r2 0 start).proc).2.stdout = "before write: 5\n" := by
  refine ⟨rfl, ?_, ?_⟩
  swap
  · show (before_write r1 init).2.stdout = "before write: 5\n"
    rw [before_write_proc]
    decide
  rw [run_ret_irrelevant r1 r2 0 0] at h ⊢
  unfold start at h ⊢
  rcases run_cases 0 0 init n with h0 | h0 | h0 | h0 | ⟨_, h0⟩
  · subst h0; rfl
  · subst h0; rfl
  · subst h0; revert h; decide
  · subst h0; revert h; decide
  · rw [h0] at h; exact absurd h (by decide)

theorem a_is_5_before_assignment_witness :
    (run 0 0 1 start).pc = Pc.assign ∧ (run 0 0 1 start).proc.a = 5 :=
  ⟨rfl, (a_is_5_before_assignment 0 0 1 (Or.inr rfl)).2.1⟩

/-- C3: whatever the state in which `main` is entered, the global `a` is 15 in
every configuration that follows the assignment (in front of `after_write`, at
the closing brace of `main`, and after termination), and the final state of
`main` has `a = 15`. -/
theorem a_is_15_after_assignment (r1 r2 : Int) (s : Proc) (n : Nat)
    (h : (run r1 r2 n (enter s)).pc = Pc.call_after ∨
      (run r1 r2 n (enter s)).pc = Pc.main_end ∨ (run r1 r2 n (enter s)).pc = Pc.exited) :
    (run r1 r2 n (enter s)).proc.a = 15 ∧ (main r1 r2 s).2.a = 15 := by
  refine ⟨?_, rfl⟩
  rcases run_cases r1 r2 s n with h0 | h0 | h0 | h0 | ⟨_, h0⟩
  · subst h0; revert h; simp [run, enter]
  · subst h0; revert h; simp [run, enter, step]
  · subst h0; rfl
  · subst h0; rfl
  · rw [h0]; rfl

theorem a_is_15_after_assignment_witness :
    (run 0 0 3 (enter init)).pc = Pc.main_end ∧ (run 0 0 3 (enter init)).proc.a = 15 ∧
      (main 0 0 init).2.a = 15 :=
  ⟨rfl, a_is_15_after_assignment 0 0 init 3 (Or.inr (Or.inl rfl))⟩

/-- C4: from the initial state `main` terminates after four steps (the three
statements and the return at the closing brace), with exit status 0 and
nothing on the error stream. No status is set earlier, the terminated
configuration does not change any more, and the error stream is empty in every
configuration of the run. -/
theorem main_terminates (r1 r2 : Int) :
    (run r1 r2 4 start).pc = Pc.exited ∧ (run r1 r2 4 start).status = some 0 ∧
    (run r1 r2 4 start).proc.stderr = "" ∧
    (run r1 r2 4 start).proc = (main r1 r2 init).2 ∧ (main r1 r2 init).1 = 0 ∧
    (∀ k, run r1 r2 (4 + k) start = run r1 r2 4 start) ∧
    (∀ n, (run r1 r2 n start).status = if n < 4 then none else some 0) ∧
    (∀ n, (run r1 r2 n start).pc = Pc.exited ↔ 4 ≤ n) ∧
    ∀ n, (run r1 r2 n start).proc.stderr = "" := by
  refine ⟨rfl, rfl, rfl, rfl, rfl, fun k => run_ge_four r1 r2 init k, ?_, ?_, ?_⟩
  · intro n
    unfold start
    rcases run_cases r1 r2 init n with h0 | h0 | h0 | h0 | ⟨h4, h0⟩
    · subst h0; rfl
    · subst h0; rfl
    · subst h0; rfl
    · subst h0; rfl
    · rw [h0, if_neg (by omega)]; rfl
  · intro n
    rw [run_ret_irrelevant r1 r2 0 0]
    unfold start
    rcases run_cases 0 0 init n with h0 | h0 | h0 | h0 | ⟨h4, h0⟩
    · subst h0; decide
    · subst h0; decide
    · subst h0; decide
    · subst h0; decide
    · rw [h0]; exact ⟨fun _ => h4, fun _ => rfl⟩
  · intro n
    unfold start
    rcases run_cases r1 r2 init n with h0 | h0 | h0 | h0 | ⟨h4, h0⟩
    · subst h0; rfl
    · subst h0; rfl
    · subst h0; rfl
    · subst h0; rfl
    · rw [h0]; rfl

/-- C5: over a run of `main` from the initial state, the values of `a` at the
start of `main`, after `before_write`, after the assignment and after
`after_write` are 5, 5, 15, 15. In every configuration of the run `a` is 5 or
15, and the only step that changes `a` is the second one, the assignment, which
takes it from 5 to 15. -/
theorem a_changes_once (r1 r2 : Int) :
    List.map (fun n => (run r1 r2 n start).pc) [0, 1, 2, 3] =
      [Pc.call_before, Pc.assign, Pc.call_after, Pc.main_end] ∧
    List.map (fun n => (run r1 r2 n start).proc.a) [0, 1, 2, 3] = [5, 5, 15, 15] ∧
    (∀ n, (run r1 r2 n start).proc.a = 5 ∨ (run r1 r2 n start).proc.a = 15) ∧
    (∀ n, (run r1 r2 n start).proc.a ≠ (run r1 r2 (n + 1) start).proc.a ↔ n = 1) ∧
    (run r1 r2 1 start).proc.a = 5 ∧ (run r1 r2 2 start).proc.a = 15 := by
  refine ⟨rfl, rfl, ?_, ?_, rfl, rfl⟩
  · intro n
    unfold start
    rcases run_cases r1 r2 init n with h0 | h0 | h0 | h0 | ⟨_, h0⟩
    · subst h0; exact Or.inl rfl
    · subst h0; exact Or.inl rfl
    · subst h0; exact Or.inr rfl
    · subst h0; exact Or.inr rfl
    · rw [h0]; exact Or.inr rfl
  · intro n
    rw [run_ret_irrelevant r1 r2 0 0 n, run_ret_irrelevant r1 r2 0 0 (n + 1)]
    unfold start
    rcases run_cases 0 0 init n with h0 | h0 | h0 | h0 | ⟨h4, h0⟩
    · subst h0; decide
    · subst h0; decide
    · subst h0; decide
    · subst h0; decide
    · obtain ⟨_, h1⟩ : 4 ≤ n + 1 ∧ run 0 0 (n + 1) (enter init) = run 0 0 4 (enter init) := by
        rcases run_cases 0 0 init (n + 1) with h | h | h | h | h
        · omega
        · omega
        · omega
        · omega
        · exact h
      rw [h0, h1]
      constructor
      · intro h; exact absurd rfl h
      · intro h; omega

/-- C6: `before_write` and `after_write` leave the global `a` and the error
stream as they are, for every state, and only extend the standard output. A
step of `main` changes `a` only at the assignment, where it stores 15 and
leaves both streams alone; every step leaves the error stream alone and keeps
what is already on the standard output. -/
theorem helpers_only_print (r1 r2 : Int) (s : Proc) (c : Config) :
    (before_write r1 s).2.a = s.a ∧ (before_write r1 s).2.stderr = s.stderr ∧
    (∃ t, (before_write r1 s).2.stdout = s.stdout ++ t) ∧
    (after_write r2 s).2.a = s.a ∧ (after_write r2 s).2.stderr = s.stderr ∧
    (∃ t, (after_write r2 s).2.stdout = s.stdout ++ t) ∧
    (step r1 r2 c).proc.a = (if c.pc = Pc.assign then 15 else c.proc.a) ∧
    (step r1 r2 c).proc.stderr = c.proc.stderr ∧
    (∃ t, (step r1 r2 c).proc.stdout = c.proc.stdout ++ t ∧
      (if c.pc = Pc.assign then t = "" else True)) ∧
    main r1 r2 s = (0, (after_write r2 { (before_write r1 s).2 with a := 15 }).2) := by
  have happ : ∀ x : String, x = x ++ "" := fun x => by
    apply String.ext
    simp [String.data_append]
  refine ⟨rfl, rfl, ⟨_, rfl⟩, rfl, rfl, ⟨_, rfl⟩, ?_, ?_, ?_, rfl⟩
  · unfold step
    cases c.pc <;> simp <;> rfl
  · unfold step
    cases c.pc <;> rfl
  · unfold step
    cases c.pc
    · exact ⟨_, rfl, by simp⟩
    · exact ⟨"", happ _, by simp⟩
    · exact ⟨_, rfl, by simp⟩
    · exact ⟨"", happ _, by simp⟩
    · exact ⟨"", happ _, by simp⟩

/-- C8: for every value `v` of the 32-bit `int` range held by `a`,
`before_write` appends to the standard output exactly `before write: `, the
text of `%d` for `v`, and a newline, and `after_write` appends exactly
`after write: `, the same text, and a newline. The text of `%d` is the signed
decimal numeral of `v` without padding or leading zeros, and it is the only
string that is; it has at most eleven characters. No newline occurs in front
of the final one, so each call appends one line. -/
theorem helpers_print_one_line (v : Int) (hv : isInt v) (ret : Int) (out err : String) :
    (before_write ret { a := v, stdout := out, stderr := err }).2.stdout =
      out ++ "before write: " ++ String.mk (fmt_d v) ++ "\n" ∧
    (after_write ret { a := v, stdout := out, stderr := err }).2.stdout =
      out ++ "after write: " ++ String.mk (fmt_d v) ++ "\n" ∧
    SignedDecimal (fmt_d v) v ∧ (∀ cs, SignedDecimal cs v ↔ cs = fmt_d v) ∧
    '\n' ∉ ("before write: " ++ String.mk (fmt_d v)).toList ∧
    '\n' ∉ ("after write: " ++ String.mk (fmt_d v)).toList ∧
    (fmt_d v).length ≤ 11 := by
  have hnl := fmt_d_no_newline v
  refine ⟨?_, ?_, fmt_d_signedDecimal v, ?_, ?_, ?_, fmt_d_length v hv⟩
  · rw [before_write_proc]
  · rw [after_write_proc]
  · intro cs
    constructor
    · exact signedDecimal_unique cs v
    · intro h; rw [h]; exact fmt_d_signedDecimal v
  · intro h
    simp only [String.toList, String.data_append, List.mem_append] at h
    rcases h with h | h
    · revert h; decide
    · exact hnl h
  · intro h
    simp only [String.toList, String.data_append, List.mem_append] at h
    rcases h with h | h
    · revert h; decide
    · exact hnl h

theorem helpers_print_one_line_witness :
    isInt INT_MIN ∧
    (before_write 0 { a := INT_MIN, stdout := "", stderr := "" }).2.stdout =
      "before write: -2147483648\n" ∧
    (after_write 0 { a := INT_MIN, stdout := "", stderr := "" }).2.stdout =
      "after write: -2147483648\n" :=
  ⟨by decide, (helpers_print_one_line INT_MIN (by decide) 0 "" "").1,
    (helpers_print_one_line INT_MIN (by decide) 0 "" "").2.1⟩

/-- C9: each helper hands back whatever value its caller would find, and `main`
does not look at it: for any two pairs of helper results, `main` returns the
same exit status and the same final state (output and `a` included), and its
runs agree configuration by configuration. -/
theorem main_ignores_helper_results (r1 r2 q1 q2 : Int) (s : Proc) (n : Nat) :
    (before_write r1 s).1 = r1 ∧ (after_write r2 s).1 = r2 ∧
    (before_write r1 s).2 = (before_write q1 s).2 ∧
    (after_write r2 s).2 = (after_write q2 s).2 ∧
    main r1 r2 s = main q1 q2 s ∧
    (main r1 r2 s).2.stdout = (main q1 q2 s).2.stdout ∧
    (main r1 r2 s).2.a = (main q1 q2 s).2.a ∧ (main r1 r2 s).1 = (main q1 q2 s).1 ∧
    run r1 r2 n (enter s) = run q1 q2 n (enter s) :=
  ⟨rfl, rfl, rfl, rfl, rfl, rfl, rfl, rfl, run_ret_irrelevant r1 r2 q1 q2 n (enter s)⟩

end WriteToGlobalVar
